import Mathlib

/-!
Verification development for the Kokoro TTS helper scripts
(Sources/tts/Resources): voice-asset resolution, remote/cache voice
listing, and the word-timing timeline assembly loop.

Python strings are modelled over their character lists so that all string
operations are executable by kernel reduction; real-valued timestamps and
audio samples (Python floats) are modelled as rationals, which captures the
exact arithmetic structure of the code (additions of offsets and divisions
by the fixed sample rate).
-/

/-! ### Python string primitives, modelled over character lists -/

/-- Python str.strip: drop leading and trailing whitespace. -/
def pyStrip (s : String) : String :=
  String.mk (((s.data.dropWhile Char.isWhitespace).reverse.dropWhile
    Char.isWhitespace).reverse)

/-- Python str.endswith. -/
def strEndsWith (s suffixStr : String) : Bool :=
  suffixStr.data.isSuffixOf s.data

/-- Python str.startswith. -/
def strStartsWith (s prefixStr : String) : Bool :=
  prefixStr.data.isPrefixOf s.data

/-- Python os.path.basename: the part of the path after the last slash. -/
def pyBasename (p : String) : String :=
  String.mk ((p.data.reverse.takeWhile (fun c => c ≠ '/')).reverse)

/-- Root part of Python os.path.splitext on a slash-free name: cut at the
last dot, unless every character before that dot is itself a dot (a
leading-dot file such as ".bashrc" has no extension). -/
def splitextRootChars (cs : List Char) : List Char :=
  match cs.reverse.findIdx? (fun c => c = '.') with
  | none => cs
  | some k =>
    let i := cs.length - 1 - k
    if (cs.take i).all (fun c => c = '.') then cs else cs.take i

/-- Python repo.replace of a slash by the two-character folder join token,
as in the Hugging Face cache naming convention. -/
def replaceSlashes (s : String) : String :=
  String.mk ((s.data.map (fun c => if c = '/' then ['-', '-'] else [c])).flatten)

/-- Python os.path.join for two components. -/
def pathJoin (a b : String) : String := a ++ "/" ++ b

/-! ### lib/voice_utils.py and kokoro_list_remote.py: voice files -/

/-- VOICE_EXTENSIONS from lib/voice_utils.py: supported voice file
extensions in priority order. -/
def VOICE_EXTENSIONS : List String := [".pt", ".onnx", ".bin"]

/-- is_voice_file from kokoro_list_remote.py (and lib/voice_utils.py):
the filename ends with one of the recognized voice extensions. -/
def is_voice_file (filename : String) : Bool :=
  VOICE_EXTENSIONS.any (fun ext => strEndsWith filename ext)

/-- get_voice_name_from_path from kokoro_list_remote.py (get_voice_name in
lib/voice_utils.py): splitext of the basename, keeping the root. -/
def get_voice_name_from_path (path : String) : String :=
  String.mk (splitextRootChars (pyBasename path).data)

/-! ### kokoro_download_voice.py: single-voice resolution

The download loop tries each extension in order and stops at the first
filename the hub can serve; availability of `voices/<voice><ext>` is
modelled as membership of that path in the remote repository file set. -/

/-- The resolution loop of kokoro_download_voice.py main: first extension
in VOICE_EXTENSIONS for which the remote file `voices/<voice><ext>`
exists; none models the not-downloaded (NotFound) exit. -/
def resolvePrimary (repoFiles : List String) (voiceName : String) : Option String :=
  VOICE_EXTENSIONS.find? (fun ext => decide (("voices/" ++ voiceName ++ ext) ∈ repoFiles))

/-! ### lib/word_timing.py: tokens and word timings -/

/-- A Kokoro pipeline token: semantic tag, raw text and optional
chunk-relative timestamps. -/
structure Token where
  tag : String
  text : String
  start_ts : Option ℚ
  end_ts : Option ℚ
deriving DecidableEq

/-- PUNCTUATION_TAGS from lib/word_timing.py (kokoro_say.py main inlines
the same list). -/
def PUNCTUATION_TAGS : List String := [".", ",", "!", "?", ":", ";", "-", "(", ")"]

/-- is_punctuation_only from lib/word_timing.py: tag in the punctuation
set and stripped text of at most one character. -/
def is_punctuation_only (token : Token) : Bool :=
  decide (token.tag ∈ PUNCTUATION_TAGS) && decide ((pyStrip token.text).length ≤ 1)

/-- One emitted word timing: the dict with keys word, start, end built in
extract_word_timings (endT stands for the "end" key, a reserved word). -/
structure WordTiming where
  word : String
  start : ℚ
  endT : ℚ
deriving DecidableEq

/-- extract_word_timings from lib/word_timing.py: skip punctuation-only
tokens, skip tokens with a missing timestamp, otherwise emit the token's
text with both timestamps shifted by current_time.  kokoro_say.py main
inlines exactly this per-token filter in its chunk loop. -/
def extract_word_timings : List Token → ℚ → List WordTiming
  | [], _ => []
  | token :: rest, current_time =>
    if is_punctuation_only token then
      extract_word_timings rest current_time
    else
      match token.start_ts, token.end_ts with
      | some s, some e =>
        ⟨token.text, current_time + s, current_time + e⟩ ::
          extract_word_timings rest current_time
      | _, _ => extract_word_timings rest current_time

/-! ### kokoro_say.py: the timeline assembly loop -/

/-- One unit of pipeline output: an audio sample buffer and the tokens of
the synthesized span. -/
structure SynthesisChunk where
  audio : List ℚ
  tokens : List Token

/-- The fixed output sample rate of the pipeline (24000 Hz). -/
def sampleRate : ℚ := 24000

/-- Chunk duration in seconds, as computed in kokoro_say.py main:
sample count divided by 24000.0. -/
def chunkDuration (c : SynthesisChunk) : ℚ := (c.audio.length : ℚ) / sampleRate

/-- The chunk loop of kokoro_say.py main: per chunk, append the audio
buffer, append the word timings extracted at the current offset, then
advance current_time by the chunk duration. -/
def mainLoop : List SynthesisChunk → List (List ℚ) → List WordTiming → ℚ →
    List (List ℚ) × List WordTiming × ℚ
  | [], audio_chunks, word_timings, current_time =>
    (audio_chunks, word_timings, current_time)
  | result :: rest, audio_chunks, word_timings, current_time =>
    mainLoop rest (audio_chunks ++ [result.audio])
      (word_timings ++ extract_word_timings result.tokens current_time)
      (current_time + chunkDuration result)

/-- Outcome of kokoro_say.py main after the loop: exit code 2 ("No audio
returned from Kokoro pipeline.") when no chunks arrived, otherwise the
concatenated audio and the collected word timings. -/
inductive SayResult where
  | emptyOutput : SayResult
  | success : List ℚ → List WordTiming → SayResult
deriving DecidableEq

/-- kokoro_say.py main, from the chunk loop to the output: report
emptyOutput when the chunk list was empty, else concatenate the audio
buffers and return them with the timings. -/
def kokoro_say (chunks : List SynthesisChunk) : SayResult :=
  let r := mainLoop chunks [] [] 0
  if r.1 = [] then SayResult.emptyOutput
  else SayResult.success r.1.flatten r.2.1

/-! ### kokoro_list_remote.py: remote listing and cache scan -/

/-- Python set.add on a list kept duplicate-free: append the element only
when it is not already present. -/
def setAdd (s : List String) (x : String) : List String :=
  if x ∈ s then s else s ++ [x]

/-- The remote-listing loop of kokoro_list_remote.py main: collect into a
set the stripped name of every listed file under voices/ with a voice
extension. -/
def remote_voices (files : List String) : List String :=
  files.foldl
    (fun voices f =>
      if strStartsWith f "voices/" && is_voice_file f then
        setAdd voices (get_voice_name_from_path f)
      else voices)
    []

/-- The directory facts find_downloaded_voices_in_cache consults:
which paths are directories and what a directory listing returns. -/
structure FileSystem where
  isDir : String → Bool
  listDir : String → List String

/-- find_downloaded_voices_in_cache from kokoro_list_remote.py,
parametrized by the resolved cache directory: missing models or snapshots
directories yield the empty list, otherwise every revision's voices/
subdirectory is scanned for voice files. -/
def find_downloaded_voices_in_cache (fs : FileSystem) (cache_dir repo : String) :
    List String :=
  let repo_folder := replaceSlashes repo
  let models_path := pathJoin cache_dir ("models--" ++ repo_folder)
  if fs.isDir models_path = false then []
  else
    let snapshots_path := pathJoin models_path "snapshots"
    if fs.isDir snapshots_path = false then []
    else
      (fs.listDir snapshots_path).foldl
        (fun downloaded snapshot =>
          let voices_dir := pathJoin (pathJoin snapshots_path snapshot) "voices"
          if fs.isDir voices_dir then
            downloaded ++
              ((fs.listDir voices_dir).filter is_voice_file).map get_voice_name_from_path
          else downloaded)
        []

/-! ### kokoro_voices.py: snapshot listing with single-voice override -/

/-- Python sorted(set(l)) over strings: remove duplicates and sort by the
code-point order. -/
def pySortedSet (l : List String) : List String :=
  (l.dedup).insertionSort (fun a b => a.data.map Char.toNat ≤ b.data.map Char.toNat)

/-- Root part of Python os.path.splitext on a general path: the directory
part is kept and only the basename is cut at its extension. -/
def pySplitextRoot (s : String) : String :=
  let cs := s.data
  let b := (pyBasename s).data
  String.mk (cs.take (cs.length - b.length) ++ splitextRootChars b)

/-- kokoro_voices.py main after argument/environment resolution: list_all
and the requested voice are the resolved flags, dirListing is the
materialized snapshot's voices/ listing (none when that directory is
missing).  In single-voice mode the scan result is replaced by the
one-element list holding the requested voice before printing
sorted(set(...)). -/
def kokoro_voices_output (list_all : Bool) (voiceArg : String)
    (dirListing : Option (List String)) : List String :=
  let voice := if list_all = false ∧ voiceArg = "" then "af_heart" else voiceArg
  let voices :=
    match dirListing with
    | none => []
    | some names =>
      (names.filter (fun name =>
        strEndsWith name ".pt" || strEndsWith name ".onnx" ||
          strEndsWith name ".bin")).map pySplitextRoot
  let voices := if list_all = false ∧ voice ≠ "" then [voice] else voices
  pySortedSet voices

/-! ### Derived views and concrete inputs used by the statements -/

/-- The word timings the chunk loop accumulates from a given time offset,
written as a plain recursion (shown below to agree with mainLoop). -/
def timingsRec : List SynthesisChunk → ℚ → List WordTiming
  | [], _ => []
  | c :: rest, t =>
    extract_word_timings c.tokens t ++ timingsRec rest (t + chunkDuration c)

/-- The chunk-relative start timestamps of the tokens extract_word_timings
actually emits, in emission order. -/
def selStarts : List Token → List ℚ
  | [] => []
  | tk :: rest =>
    if is_punctuation_only tk then selStarts rest
    else
      match tk.start_ts, tk.end_ts with
      | some s, some _ => s :: selStarts rest
      | _, _ => selStarts rest

/-- A token's start timestamp, when present, lies within its chunk:
nonnegative and at most the chunk duration. -/
def startInChunkRange (c : SynthesisChunk) (tk : Token) : Bool :=
  tk.start_ts.all (fun s => decide (0 ≤ s ∧ s ≤ chunkDuration c))

/-- A word token with timestamps followed by a punctuation-only token
without timestamps: the input refuting the C4 count formula as stated. -/
def c4Tokens : List Token :=
  [⟨"x", "hello", some 0, some 1⟩, ⟨".", ".", none, none⟩]

/-- Two single-token chunks whose per-chunk starts are sorted but whose
first token starts past its one-sample chunk's duration: the input
refuting the C5 monotonicity claim as stated. -/
def c5Chunks : List SynthesisChunk :=
  [⟨[0], [⟨"w", "a", some 1, some 1⟩]⟩, ⟨[0], [⟨"w", "b", some 0, some 0⟩]⟩]

/-! ### Helper lemmas -/

theorem extract_cons (tk : Token) (rest : List Token) (t : ℚ) :
    extract_word_timings (tk :: rest) t =
      extract_word_timings [tk] t ++ extract_word_timings rest t := by
  by_cases hp : is_punctuation_only tk
  · simp [extract_word_timings, hp]
  · cases hs : tk.start_ts <;> cases he : tk.end_ts <;>
      simp [extract_word_timings, hp, hs, he]

theorem extract_map_start (tokens : List Token) (t : ℚ) :
    (extract_word_timings tokens t).map WordTiming.start =
      (selStarts tokens).map (fun s => t + s) := by
  induction tokens with
  | nil => rfl
  | cons tk rest ih =>
    by_cases hp : is_punctuation_only tk
    · simp [extract_word_timings, selStarts, hp, ih]
    · cases hs : tk.start_ts <;> cases he : tk.end_ts <;>
        simp [extract_word_timings, selStarts, hp, hs, he, ih]

theorem selStarts_sublist (tokens : List Token) :
    List.Sublist (selStarts tokens) (tokens.filterMap Token.start_ts) := by
  induction tokens with
  | nil => simp [selStarts]
  | cons tk rest ih =>
    by_cases hp : is_punctuation_only tk <;>
      cases hs : tk.start_ts <;> cases he : tk.end_ts <;>
      simp [selStarts, List.filterMap_cons, hp, hs, he] <;>
      first
      | exact ih
      | exact ih.cons _
      | exact ih.cons₂ _

theorem mem_selStarts {tokens : List Token} {s : ℚ} (h : s ∈ selStarts tokens) :
    ∃ tk ∈ tokens, tk.start_ts = some s := by
  have hmem : s ∈ tokens.filterMap Token.start_ts :=
    (selStarts_sublist tokens).subset h
  exact List.mem_filterMap.mp hmem

theorem mainLoop_eq (chunks : List SynthesisChunk) :
    ∀ (a : List (List ℚ)) (w : List WordTiming) (t : ℚ),
    mainLoop chunks a w t =
      (a ++ chunks.map SynthesisChunk.audio, w ++ timingsRec chunks t,
        t + (chunks.map chunkDuration).sum) := by
  induction chunks with
  | nil => intro a w t; simp [mainLoop, timingsRec]
  | cons c rest ih =>
    intro a w t
    simp only [mainLoop, timingsRec, ih, List.map_cons, List.sum_cons, Prod.mk.injEq]
    refine ⟨by simp, by simp, by ring⟩

theorem mem_setAdd {s : List String} {x n : String} :
    n ∈ setAdd s x ↔ n ∈ s ∨ n = x := by
  by_cases h : x ∈ s
  · simp only [setAdd, if_pos h]
    constructor
    · exact Or.inl
    · rintro (hn | rfl)
      · exact hn
      · exact h
  · simp [setAdd, h]

theorem nodup_setAdd {s : List String} (x : String) (h : s.Nodup) :
    (setAdd s x).Nodup := by
  by_cases hx : x ∈ s
  · simpa [setAdd, hx] using h
  · simp [setAdd, hx, List.nodup_append, h]

theorem foldl_remote_mem (files : List String) :
    ∀ (acc : List String) (n : String),
      (n ∈ files.foldl
          (fun voices f =>
            if strStartsWith f "voices/" && is_voice_file f then
              setAdd voices (get_voice_name_from_path f)
            else voices) acc ↔
        n ∈ acc ∨ ∃ f ∈ files,
          (strStartsWith f "voices/" && is_voice_file f) = true ∧
            get_voice_name_from_path f = n) := by
  induction files with
  | nil => intro acc n; simp
  | cons f rest ih =>
    intro acc n
    simp only [List.foldl_cons]
    by_cases hq : (strStartsWith f "voices/" && is_voice_file f) = true
    · rw [if_pos hq, ih, mem_setAdd]
      constructor
      · rintro ((hacc | rfl) | ⟨g, hg, hq2, hn⟩)
        · exact Or.inl hacc
        · exact Or.inr ⟨f, List.mem_cons_self f rest, hq, rfl⟩
        · exact Or.inr ⟨g, List.mem_cons_of_mem _ hg, hq2, hn⟩
      · rintro (hacc | ⟨g, hg, hq2, hn⟩)
        · exact Or.inl (Or.inl hacc)
        · rcases List.mem_cons.mp hg with rfl | hg'
          · exact Or.inl (Or.inr hn.symm)
          · exact Or.inr ⟨g, hg', hq2, hn⟩
    · rw [if_neg hq, ih]
      constructor
      · rintro (hacc | ⟨g, hg, hq2, hn⟩)
        · exact Or.inl hacc
        · exact Or.inr ⟨g, List.mem_cons_of_mem _ hg, hq2, hn⟩
      · rintro (hacc | ⟨g, hg, hq2, hn⟩)
        · exact Or.inl hacc
        · rcases List.mem_cons.mp hg with rfl | hg'
          · exact absurd hq2 hq
          · exact Or.inr ⟨g, hg', hq2, hn⟩

theorem foldl_remote_nodup (files : List String) :
    ∀ acc : List String, acc.Nodup →
      (files.foldl
        (fun voices f =>
          if strStartsWith f "voices/" && is_voice_file f then
            setAdd voices (get_voice_name_from_path f)
          else voices) acc).Nodup := by
  induction files with
  | nil => intro acc h; simpa
  | cons f rest ih =>
    intro acc h
    simp only [List.foldl_cons]
    by_cases hq : (strStartsWith f "voices/" && is_voice_file f) = true
    · rw [if_pos hq]; exact ih _ (nodup_setAdd _ h)
    · rw [if_neg hq]; exact ih _ h

theorem timingsRec_start_lower (chunks : List SynthesisChunk) :
    ∀ (t : ℚ),
      (∀ c ∈ chunks, ∀ tk ∈ c.tokens, startInChunkRange c tk = true) →
      ∀ w ∈ timingsRec chunks t, t ≤ w.start := by
  induction chunks with
  | nil => intro t _ w hw; simp [timingsRec] at hw
  | cons c rest ih =>
    intro t hb w hw
    simp only [timingsRec, List.mem_append] at hw
    rcases hw with hw | hw
    · have hstart : w.start ∈ (extract_word_timings c.tokens t).map WordTiming.start :=
        List.mem_map_of_mem _ hw
      rw [extract_map_start] at hstart
      rcases List.mem_map.mp hstart with ⟨s, hsmem, heq⟩
      rcases mem_selStarts hsmem with ⟨tk, htk, hts⟩
      have hr := hb c (List.mem_cons_self _ _) tk htk
      rw [startInChunkRange, hts] at hr
      simp only [Option.all] at hr
      have hrange := of_decide_eq_true hr
      rw [← heq]
      linarith [hrange.1]
    · have hdur : 0 ≤ chunkDuration c := by
        unfold chunkDuration sampleRate
        positivity
      have hlow := ih (t + chunkDuration c)
        (fun c' hc' => hb c' (List.mem_cons_of_mem _ hc')) w hw
      linarith

theorem timingsRec_start_pairwise (chunks : List SynthesisChunk) :
    ∀ (t : ℚ),
      (∀ c ∈ chunks, (c.tokens.filterMap Token.start_ts).Pairwise (· ≤ ·)) →
      (∀ c ∈ chunks, ∀ tk ∈ c.tokens, startInChunkRange c tk = true) →
      ((timingsRec chunks t).map WordTiming.start).Pairwise (· ≤ ·) := by
  induction chunks with
  | nil => intro t _ _; simp [timingsRec]
  | cons c rest ih =>
    intro t hs hb
    simp only [timingsRec, List.map_append]
    rw [List.pairwise_append]
    refine ⟨?_, ?_, ?_⟩
    · rw [extract_map_start, List.pairwise_map]
      have hsel : (selStarts c.tokens).Pairwise (· ≤ ·) :=
        (hs c (List.mem_cons_self _ _)).sublist (selStarts_sublist c.tokens)
      exact hsel.imp (fun hab => by linarith)
    · exact ih (t + chunkDuration c)
        (fun c' hc' => hs c' (List.mem_cons_of_mem _ hc'))
        (fun c' hc' => hb c' (List.mem_cons_of_mem _ hc'))
    · intro a ha b hbmem
      rw [extract_map_start] at ha
      rcases List.mem_map.mp ha with ⟨s, hsmem, rfl⟩
      rcases mem_selStarts hsmem with ⟨tk, htk, hts⟩
      have hr := hb c (List.mem_cons_self _ _) tk htk
      rw [startInChunkRange, hts] at hr
      simp only [Option.all] at hr
      have hrange := of_decide_eq_true hr
      rcases List.mem_map.mp hbmem with ⟨w, hw, rfl⟩
      have hwlow := timingsRec_start_lower rest (t + chunkDuration c)
        (fun c' hc' => hb c' (List.mem_cons_of_mem _ hc')) w hw
      linarith [hrange.2]

theorem extract_length_add (tokens : List Token) (t : ℚ) :
    (extract_word_timings tokens t).length +
      tokens.countP is_punctuation_only +
      tokens.countP
        (fun tk => !is_punctuation_only tk &&
          (tk.start_ts.isNone || tk.end_ts.isNone)) =
      tokens.length := by
  induction tokens with
  | nil => rfl
  | cons tk rest ih =>
    by_cases hp : is_punctuation_only tk <;>
      cases hs : tk.start_ts <;> cases he : tk.end_ts <;>
      simp [extract_word_timings, List.countP_cons, hp, hs, he] <;> omega

/-! ### Claim theorems -/

/-- C1: voice resolution tries the extensions in the fixed priority order
.pt, .onnx, .bin and returns the first extension whose file
voices/(voiceName)(ext) is in the remote file set, with none (NotFound)
exactly when no extension matches; in particular a voice present under
both .pt and .onnx resolves to .pt, and the result is a function of the
inputs, hence deterministic across repeated calls. -/
theorem resolvePrimary_first_extension (repoFiles : List String) (voiceName : String) :
    resolvePrimary repoFiles voiceName =
      (if ("voices/" ++ voiceName ++ ".pt") ∈ repoFiles then some ".pt"
       else if ("voices/" ++ voiceName ++ ".onnx") ∈ repoFiles then some ".onnx"
       else if ("voices/" ++ voiceName ++ ".bin") ∈ repoFiles then some ".bin"
       else none) ∧
    (resolvePrimary repoFiles voiceName = none ↔
      ∀ ext ∈ VOICE_EXTENSIONS, ("voices/" ++ voiceName ++ ext) ∉ repoFiles) := by
  have hmain : resolvePrimary repoFiles voiceName =
      (if ("voices/" ++ voiceName ++ ".pt") ∈ repoFiles then some ".pt"
       else if ("voices/" ++ voiceName ++ ".onnx") ∈ repoFiles then some ".onnx"
       else if ("voices/" ++ voiceName ++ ".bin") ∈ repoFiles then some ".bin"
       else none) := by
    simp only [resolvePrimary, VOICE_EXTENSIONS]
    by_cases h1 : ("voices/" ++ voiceName ++ ".pt") ∈ repoFiles <;>
      by_cases h2 : ("voices/" ++ voiceName ++ ".onnx") ∈ repoFiles <;>
      by_cases h3 : ("voices/" ++ voiceName ++ ".bin") ∈ repoFiles <;>
      simp [List.find?, h1, h2, h3]
  refine ⟨hmain, ?_⟩
  rw [hmain]
  by_cases h1 : ("voices/" ++ voiceName ++ ".pt") ∈ repoFiles <;>
    by_cases h2 : ("voices/" ++ voiceName ++ ".onnx") ∈ repoFiles <;>
    by_cases h3 : ("voices/" ++ voiceName ++ ".bin") ∈ repoFiles <;>
    simp [VOICE_EXTENSIONS, h1, h2, h3]

/-- Witness for C1: a voice present as both .pt and .onnx resolves to the
.pt variant. -/
theorem resolvePrimary_first_extension_witness :
    resolvePrimary ["voices/af_heart.pt", "voices/af_heart.onnx"] "af_heart" =
      some ".pt" := by
  rw [(resolvePrimary_first_extension
    ["voices/af_heart.pt", "voices/af_heart.onnx"] "af_heart").1]
  decide

/-- C6: when the pipeline yields zero chunks, kokoro_say reports the
distinct emptyOutput condition and never a success, so a zero-length
audio buffer is never returned as a silent success in that case. -/
theorem kokoro_say_empty_output (chunks : List SynthesisChunk) (h : chunks = []) :
    kokoro_say chunks = SayResult.emptyOutput ∧
      ∀ audio timings, kokoro_say chunks ≠ SayResult.success audio timings := by
  subst h
  refine ⟨rfl, ?_⟩
  intro audio timings hcontra
  simp [kokoro_say, mainLoop] at hcontra

/-- Witness for C6: the empty chunk sequence yields emptyOutput. -/
theorem kokoro_say_empty_output_witness :
    kokoro_say [] = SayResult.emptyOutput :=
  (kokoro_say_empty_output [] rfl).1

/-- C7: listing cached voices returns the empty list, not an error, when
the models folder of the repository or its snapshots directory is not a
directory; and when directory existence is closed under parents, a
missing cache root also yields the empty list. -/
theorem find_downloaded_voices_missing_dirs (fs : FileSystem) (cache_dir repo : String) :
    (fs.isDir (pathJoin cache_dir ("models--" ++ replaceSlashes repo)) = false →
      find_downloaded_voices_in_cache fs cache_dir repo = []) ∧
    (fs.isDir (pathJoin (pathJoin cache_dir ("models--" ++ replaceSlashes repo))
        "snapshots") = false →
      find_downloaded_voices_in_cache fs cache_dir repo = []) ∧
    ((∀ p q : String, fs.isDir (pathJoin p q) = true → fs.isDir p = true) →
      fs.isDir cache_dir = false →
      find_downloaded_voices_in_cache fs cache_dir repo = []) := by
  refine ⟨?_, ?_, ?_⟩
  · intro h
    simp [find_downloaded_voices_in_cache, h]
  · intro h
    by_cases hm : fs.isDir (pathJoin cache_dir ("models--" ++ replaceSlashes repo)) = false
    · simp [find_downloaded_voices_in_cache, hm]
    · simp [find_downloaded_voices_in_cache, hm, h]
  · intro hwf hroot
    by_cases hm : fs.isDir (pathJoin cache_dir ("models--" ++ replaceSlashes repo)) = false
    · simp [find_downloaded_voices_in_cache, hm]
    · exfalso
      have hmt : fs.isDir (pathJoin cache_dir ("models--" ++ replaceSlashes repo)) = true := by
        revert hm
        cases fs.isDir (pathJoin cache_dir ("models--" ++ replaceSlashes repo)) <;> simp
      have := hwf cache_dir ("models--" ++ replaceSlashes repo) hmt
      rw [hroot] at this
      exact Bool.false_ne_true this

/-- Witness for C7: on a filesystem with no directories at all, the scan
of the default repository returns the empty list. -/
theorem find_downloaded_voices_missing_dirs_witness :
    find_downloaded_voices_in_cache
      ⟨fun _ => false, fun _ => []⟩ "/home/user/.cache/huggingface/hub"
      "hexgrad/Kokoro-82M" = [] :=
  (find_downloaded_voices_missing_dirs
    ⟨fun _ => false, fun _ => []⟩ "/home/user/.cache/huggingface/hub"
    "hexgrad/Kokoro-82M").1 rfl

/-- C9: extraction is equivariant under translation of the time offset:
the run at offset t1 is the run at offset t2 with (t1 - t2) added to every
start and end, and the emitted words and their order coincide. -/
theorem extract_word_timings_time_equivariant (tokens : List Token) (t1 t2 : ℚ) :
    extract_word_timings tokens t1 =
      (extract_word_timings tokens t2).map
        (fun w => ⟨w.word, w.start + (t1 - t2), w.endT + (t1 - t2)⟩) ∧
    (extract_word_timings tokens t1).map WordTiming.word =
      (extract_word_timings tokens t2).map WordTiming.word := by
  have key : extract_word_timings tokens t1 =
      (extract_word_timings tokens t2).map
        (fun w => ⟨w.word, w.start + (t1 - t2), w.endT + (t1 - t2)⟩) := by
    induction tokens with
    | nil => rfl
    | cons tk rest ih =>
      by_cases hp : is_punctuation_only tk
      · simp only [extract_word_timings, if_pos hp]
        exact ih
      · cases hs : tk.start_ts <;> cases he : tk.end_ts <;>
          simp only [extract_word_timings, if_neg hp, hs, he, List.map_cons] <;>
          try exact ih
        rw [ih]
        refine congrArg₂ _ ?_ rfl
        refine congrArg₂ _ (by ring) (by ring)
  refine ⟨key, ?_⟩
  rw [key, List.map_map]
  rfl

/-- C10: in single-voice mode (not list-all) with a nonempty requested
voice, the printed list is exactly the one-element list holding that
voice, whatever the snapshot scan found, including a missing voices
directory. -/
theorem kokoro_voices_single_voice (voiceArg : String)
    (dirListing : Option (List String)) (h : voiceArg ≠ "") :
    kokoro_voices_output false voiceArg dirListing = [voiceArg] := by
  simp only [kokoro_voices_output]
  rw [if_neg (show ¬(True ∧ voiceArg = "") from by simp [h])]
  rw [if_pos (show True ∧ voiceArg ≠ "" from ⟨trivial, h⟩)]
  simp [pySortedSet, List.insertionSort, List.orderedInsert,
    List.dedup_cons_of_not_mem (List.not_mem_nil voiceArg)]

/-- Witness for C10: requesting bf_emma while the scan only found
af_heart.pt still prints exactly bf_emma. -/
theorem kokoro_voices_single_voice_witness :
    kokoro_voices_output false "bf_emma" (some ["af_heart.pt"]) = ["bf_emma"] :=
  kokoro_voices_single_voice "bf_emma" (some ["af_heart.pt"]) (by decide)

/-- C2: a token of a processed chunk yields a WordTiming exactly when it
is not punctuation-only and both timestamps are present; the emitted entry
carries the untrimmed text and both timestamps shifted by the elapsed
time; and a chunk's output is the concatenation of its per-token
outputs. -/
theorem extract_word_timings_per_token (token : Token) (elapsedSeconds : ℚ) :
    ((extract_word_timings [token] elapsedSeconds ≠ []) ↔
      (is_punctuation_only token = false ∧
        token.start_ts.isSome ∧ token.end_ts.isSome)) ∧
    (∀ s e : ℚ, is_punctuation_only token = false → token.start_ts = some s →
      token.end_ts = some e →
      extract_word_timings [token] elapsedSeconds =
        [⟨token.text, elapsedSeconds + s, elapsedSeconds + e⟩]) ∧
    (∀ tokens : List Token,
      extract_word_timings tokens elapsedSeconds =
        (tokens.map (fun tk => extract_word_timings [tk] elapsedSeconds)).flatten) := by
  refine ⟨?_, ?_, ?_⟩
  · by_cases hp : is_punctuation_only token <;>
      cases hs : token.start_ts <;> cases he : token.end_ts <;>
      simp [extract_word_timings, hp, hs, he]
  · intro s e hp hs he
    simp [extract_word_timings, hp, hs, he]
  · intro tokens
    induction tokens with
    | nil => rfl
    | cons tk rest ih =>
      rw [extract_cons, ih]
      simp

/-- Witness for C2: a non-punctuation token with both timestamps present
is emitted with the elapsed time added to both endpoints. -/
theorem extract_word_timings_per_token_witness :
    extract_word_timings [⟨"w", "Hello", some 0, some (2/5)⟩] 1 =
      [⟨"Hello", 1 + 0, 1 + 2/5⟩] :=
  (extract_word_timings_per_token ⟨"w", "Hello", some 0, some (2/5)⟩ 1).2.1 0 (2/5)
    (by decide) rfl rfl

/-- C3: after processing a nonempty chunk sequence the elapsed time equals
the sum over the chunks of sampleCount divided by the fixed sample rate,
and it depends only on the audio buffers, not on the tokens. -/
theorem elapsed_equals_duration_sum (chunks : List SynthesisChunk) (h : chunks ≠ []) :
    (mainLoop chunks [] [] 0).2.2 =
      (chunks.map (fun c => (c.audio.length : ℚ) / sampleRate)).sum ∧
    ∀ chunks' : List SynthesisChunk,
      chunks.map (fun c => c.audio.length) = chunks'.map (fun c => c.audio.length) →
      (mainLoop chunks [] [] 0).2.2 = (mainLoop chunks' [] [] 0).2.2 := by
  have key : ∀ cs : List SynthesisChunk,
      (mainLoop cs [] [] 0).2.2 =
        (cs.map (fun c => (c.audio.length : ℚ) / sampleRate)).sum := by
    intro cs
    rw [mainLoop_eq]
    show 0 + (List.map chunkDuration cs).sum =
      (cs.map (fun c => (c.audio.length : ℚ) / sampleRate)).sum
    rw [zero_add]
    rfl
  refine ⟨key chunks, ?_⟩
  intro chunks' hmap
  rw [key chunks, key chunks']
  have hmaps : chunks.map (fun c => (c.audio.length : ℚ) / sampleRate) =
      chunks'.map (fun c => (c.audio.length : ℚ) / sampleRate) := by
    have hcast := congrArg (List.map (fun n : ℕ => (n : ℚ) / sampleRate)) hmap
    simpa [List.map_map, Function.comp] using hcast
  rw [hmaps]

/-- Witness for C3: a single two-sample chunk with no tokens accrues
exactly its own duration. -/
theorem elapsed_equals_duration_sum_witness :
    ([⟨[0, 0], []⟩] : List SynthesisChunk) ≠ [] ∧
    (mainLoop [⟨[0, 0], []⟩] [] [] 0).2.2 =
      (([⟨[0, 0], []⟩] : List SynthesisChunk).map
        (fun c => (c.audio.length : ℚ) / sampleRate)).sum :=
  ⟨by simp, (elapsed_equals_duration_sum [⟨[0, 0], []⟩] (by simp)).1⟩

/-- C4 counterexample: on a word token with timestamps followed by a
punctuation-only token without timestamps, the emitted count (1) differs
from input count minus punctuation-only count minus missing-timestamp
count (2 - 1 - 1 = 0): the punctuation-only token with missing timestamps
is subtracted twice by the claimed formula. -/
theorem timing_count_claim_counterexample :
    ¬ ((extract_word_timings c4Tokens 0).length =
        c4Tokens.length - c4Tokens.countP is_punctuation_only -
          c4Tokens.countP (fun tk => tk.start_ts.isNone || tk.end_ts.isNone)) := by
  decide

/-- C4 amended: the emitted WordTiming count equals the input token count
minus the punctuation-only tokens minus the tokens that are not
punctuation-only but have an absent timestamp endpoint. -/
theorem timing_count_equation (tokens : List Token) (current_time : ℚ) :
    (extract_word_timings tokens current_time).length =
      tokens.length - tokens.countP is_punctuation_only -
        tokens.countP
          (fun tk => !is_punctuation_only tk &&
            (tk.start_ts.isNone || tk.end_ts.isNone)) := by
  have h := extract_length_add tokens current_time
  omega

/-- C5 counterexample: both chunks have internally sorted start
timestamps, yet the emitted starts decrease across the chunk boundary,
because the first chunk's token starts later than the chunk's own
one-sample duration. -/
theorem starts_monotone_claim_counterexample :
    (∀ c ∈ c5Chunks, (c.tokens.filterMap Token.start_ts).Pairwise (· ≤ ·)) ∧
    ¬ (((mainLoop c5Chunks [] [] 0).2.1).map WordTiming.start).Pairwise (· ≤ ·) := by
  constructor
  · simp [c5Chunks]
  · intro hpw
    have e1 : is_punctuation_only ⟨"w", "a", some 1, some 1⟩ = false := by decide
    have e2 : is_punctuation_only ⟨"w", "b", some 0, some 0⟩ = false := by decide
    rw [mainLoop_eq] at hpw
    simp only [List.nil_append] at hpw
    simp [timingsRec, c5Chunks, extract_word_timings, e1, e2, chunkDuration,
      sampleRate, List.pairwise_cons] at hpw
    norm_num at hpw

/-- C5 amended: when chunks are processed in arrival order, each chunk's
present start timestamps are non-decreasing, and every present start
timestamp lies between 0 and its chunk's duration, the emitted WordTiming
start values are non-decreasing across the whole utterance. -/
theorem wordTiming_starts_monotone (chunks : List SynthesisChunk)
    (hs : ∀ c ∈ chunks, (c.tokens.filterMap Token.start_ts).Pairwise (· ≤ ·))
    (hb : ∀ c ∈ chunks, ∀ tk ∈ c.tokens, startInChunkRange c tk = true) :
    (((mainLoop chunks [] [] 0).2.1).map WordTiming.start).Pairwise (· ≤ ·) := by
  rw [mainLoop_eq]
  simp only [List.nil_append]
  exact timingsRec_start_pairwise chunks 0 hs hb

/-- Witness for C5 amended: a chunk whose only token starts at 0 within a
one-sample chunk yields monotone starts. -/
theorem wordTiming_starts_monotone_witness :
    (((mainLoop [⟨[0], [⟨"w", "a", some 0, some 0⟩]⟩] [] [] 0).2.1).map
      WordTiming.start).Pairwise (· ≤ ·) :=
  wordTiming_starts_monotone [⟨[0], [⟨"w", "a", some 0, some 0⟩]⟩]
    (by simp)
    (by
      intro c hc tk htk
      rcases List.mem_cons.mp hc with rfl | hfalse
      · rcases List.mem_cons.mp htk with rfl | hfalse2
        · simp [startInChunkRange, Option.all, chunkDuration, sampleRate]
        · simp at hfalse2
      · simp at hfalse)

/-- C8: the remote listing contains a name exactly when some listed file
starts with the voices/ marker, ends with a voice extension, and strips to
that name; and the listing holds no duplicates, so a name present under
several extensions appears once. -/
theorem remote_voices_membership (files : List String) (n : String) :
    (n ∈ remote_voices files ↔
      ∃ f ∈ files, strStartsWith f "voices/" = true ∧ is_voice_file f = true ∧
        get_voice_name_from_path f = n) ∧
    (remote_voices files).Nodup := by
  constructor
  · unfold remote_voices
    rw [foldl_remote_mem files [] n]
    simp [Bool.and_eq_true, and_assoc]
  · unfold remote_voices
    exact foldl_remote_nodup files [] List.nodup_nil

/-- Witness for C8: af_heart listed under two extensions is reported,
through its .pt file, as the single name af_heart. -/
theorem remote_voices_membership_witness :
    "af_heart" ∈ remote_voices ["voices/af_heart.pt", "voices/af_heart.onnx"] :=
  (remote_voices_membership
    ["voices/af_heart.pt", "voices/af_heart.onnx"] "af_heart").1.mpr
    ⟨"voices/af_heart.pt", by decide, by decide, by decide, by decide⟩
